import Mathlib

/-!
Verification development for the BlockChain-Simulation repository.

The Python sources under src/ are shallowly embedded: every definition below
mirrors one Python function or class, with numeric amounts (Python floats)
modelled as exact rationals, dictionaries modelled as association lists or
total maps with the 0-default that the accessors implement, and the
cryptographic primitives (SHA-256 over canonical JSON, HMAC-SHA-256)
abstracted as function parameters bundled in `HashFns`, since every use in
the source treats them as black-box string functions.
-/

namespace Sim

/-- Python `"0" * n`: a string of n zero characters. -/
def zeros (n : Nat) : String := String.mk (List.replicate n '0')

/-- Python `s.startswith("0" * n)` (src/block.py `is_valid_proof`). -/
def hasLeadingZeros (s : String) (n : Nat) : Bool :=
  s.data.take n == List.replicate n '0'

/-- The five canonical fields serialised by `Transaction.compute_hash`
(src/transaction.py): the key-sorted JSON omits signature and cached hash. -/
structure TxCore where
  sender : String
  receiver : String
  amount : ℚ
  fee : ℚ
  nonce : ℕ
deriving Repr, DecidableEq

/-- The header fields serialised by `Block.compute_hash` (src/block.py). -/
structure BlockHeader where
  index : ℕ
  merkle_root : String
  previous_hash : String
  timestamp : ℚ
  nonce : ℕ
  difficulty : ℕ
deriving Repr, DecidableEq

/-- Abstract model of the hash and MAC primitives used by the source:
`txHash` is SHA-256 over the canonical transaction JSON, `blockHash` is
SHA-256 over the canonical header JSON, `hmac key msg` is HMAC-SHA-256,
and `sha` is SHA-256 of a raw string (src/merkle.py `_hash`). -/
structure HashFns where
  txHash : TxCore → String
  blockHash : BlockHeader → String
  hmac : String → String → String
  sha : String → String

/-- src/transaction.py `Transaction.__init__`: `tx_hash` is the cached
`_hash` slot (the `tx_hash` constructor argument). -/
structure Transaction where
  sender : String
  receiver : String
  amount : ℚ
  fee : ℚ
  nonce : ℕ
  signature : Option String
  tx_hash : Option String
deriving Repr, DecidableEq

def Transaction.core (tx : Transaction) : TxCore :=
  ⟨tx.sender, tx.receiver, tx.amount, tx.fee, tx.nonce⟩

/-- src/transaction.py `Transaction.compute_hash`. -/
def Transaction.compute_hash (F : HashFns) (tx : Transaction) : String :=
  F.txHash tx.core

/-- src/transaction.py `Transaction.hash` property: returns the cached
`_hash` when present, otherwise the recomputed hash. -/
def Transaction.hash (F : HashFns) (tx : Transaction) : String :=
  tx.tx_hash.getD (Transaction.compute_hash F tx)

/-- src/transaction.py `Transaction.sign`. -/
def Transaction.sign (F : HashFns) (tx : Transaction) (private_key : String) : Transaction :=
  { tx with signature := some (F.hmac private_key (Transaction.compute_hash F tx)) }

/-- src/transaction.py `Transaction.verify_signature`: recomputes the hash
from the canonical fields and compares the HMAC. -/
def Transaction.verify_signature (F : HashFns) (tx : Transaction) (public_key : String) : Bool :=
  match tx.signature with
  | none => false
  | some sig => sig == F.hmac public_key (Transaction.compute_hash F tx)

/-- src/transaction.py `Transaction.is_valid`. The Python error strings are
abbreviated; their contents are never branched on. The Python truthiness
test `if not self.signature` treats both None and the empty string as
missing. -/
def Transaction.is_valid (F : HashFns) (tx : Transaction) (verify_sig : Bool) : Bool × String :=
  if tx.amount < 0 then (false, "Amount cannot be negative")
  else if tx.amount = 0 ∧ tx.sender ≠ "COINBASE" then
    (false, "Amount must be positive for non-coinbase transactions")
  else if tx.fee < 0 then (false, "Fee cannot be negative")
  else if tx.sender = tx.receiver then (false, "Sender and receiver must be different")
  else if verify_sig ∧ tx.sender ≠ "COINBASE" then
    if tx.signature = none ∨ tx.signature = some "" then (false, "Transaction must be signed")
    else if Transaction.verify_signature F tx tx.sender then (true, "")
    else (false, "Invalid signature")
  else (true, "")

/-- src/transaction.py `Transaction.create_coinbase`. -/
def Transaction.create_coinbase (miner : String) (reward : ℚ) : Transaction :=
  ⟨"COINBASE", miner, reward, 0, 0, some "COINBASE", none⟩

/-- The wire dictionary decoded by `Transaction.from_dict`; `hash` is the
advisory field `data.get("hash")`. -/
structure TxDict where
  sender : String
  receiver : String
  amount : ℚ
  fee : ℚ
  nonce : ℕ
  signature : Option String
  hash : Option String
deriving Repr, DecidableEq

/-- src/transaction.py `Transaction.from_dict`: the wire `hash` field is
stored into the `_hash` cache slot. -/
def Transaction.from_dict (d : TxDict) : Transaction :=
  ⟨d.sender, d.receiver, d.amount, d.fee, d.nonce, d.signature, d.hash⟩

/-- src/transaction.py `Transaction.to_dict`. -/
def Transaction.to_dict (F : HashFns) (tx : Transaction) : TxDict :=
  ⟨tx.sender, tx.receiver, tx.amount, tx.fee, tx.nonce, tx.signature,
    some (Transaction.hash F tx)⟩

/-- Placeholder transaction used only as the irrelevant default of list
indexing in theorem statements. -/
def dummyTx : Transaction := ⟨"", "", 0, 0, 0, none, none⟩

/-- src/merkle.py `MerkleTree._hash_pair`. -/
def hashPair (F : HashFns) (l r : String) : String := F.sha (l ++ r)

/-- One bottom-up level step of `MerkleTree._build_tree`: the loop
`for i in range(0, len(current_level), 2)` pairs adjacent nodes and, when a
node at an odd position count has no right sibling, pairs it with itself. -/
def pairUp (F : HashFns) : List String → List String
  | [] => []
  | [l] => [hashPair F l l]
  | l :: r :: rest => hashPair F l r :: pairUp F rest

/-- Length of one level step: each pair of nodes becomes one parent. -/
def pairUp_length (F : HashFns) : ∀ l : List String, (pairUp F l).length = (l.length + 1) / 2
  | [] => rfl
  | [_] => by simp [pairUp]
  | _ :: _ :: rest => by
    simp only [pairUp, List.length_cons, pairUp_length F rest]
    omega

/-- src/merkle.py `MerkleTree._build_tree` leaf padding: if the leaf count
is odd, the last leaf is duplicated. -/
def padLeaves (leaves : List String) : List String :=
  if leaves.length % 2 = 1 then leaves ++ [leaves.getLastD ""] else leaves

/-- The `while len(current_level) > 1` loop of `_build_tree`, reduced to its
final value: the root is the single node of the top level, and the hash of
the empty string for an empty level. -/
def rootFrom (F : HashFns) (cur : List String) : String :=
  if _h : 2 ≤ cur.length then rootFrom F (pairUp F cur)
  else
    match cur with
    | [] => F.sha ""
    | x :: _ => x
termination_by cur.length
decreasing_by
  rw [pairUp_length]
  omega

/-- The sibling selection of `MerkleTree.get_proof` at one level: an even
index takes the right neighbour (or itself when there is none), an odd
index takes the left neighbour. -/
def siblingStep (cur : List String) (i : ℕ) : String × String :=
  if i % 2 = 0 then
    if i + 1 < cur.length then (cur.getD (i + 1) "", "right")
    else (cur.getD i "", "right")
  else (cur.getD (i - 1) "", "left")

/-- The `for level in range(len(self.tree) - 1)` loop of `get_proof`: one
step per level below the root, moving to the parent index `i // 2`. -/
def proofFrom (F : HashFns) (cur : List String) (i : ℕ) : List (String × String) :=
  if _h : 2 ≤ cur.length then siblingStep cur i :: proofFrom F (pairUp F cur) (i / 2)
  else []
termination_by cur.length
decreasing_by
  rw [pairUp_length]
  omega

/-- The recomputation loop of `MerkleTree.verify_proof`. -/
def foldProof (F : HashFns) (txh : String) (proof : List (String × String)) : String :=
  proof.foldl
    (fun cur sp => if sp.2 = "left" then hashPair F sp.1 cur else hashPair F cur sp.1)
    txh

/-- Leaf hashes of a transaction list (src/merkle.py `_build_tree`, using
the transaction `hash` property). -/
def txLeaves (F : HashFns) (txs : List Transaction) : List String :=
  txs.map (Transaction.hash F)

/-- The padded leaf level of the tree built over `txs`. -/
def paddedLeaves (F : HashFns) (txs : List Transaction) : List String :=
  padLeaves (txLeaves F txs)

/-- src/merkle.py `MerkleTree.root` property: for an empty transaction list
the tree is never built and the root is SHA-256 of the empty string. -/
def MerkleTree.root (F : HashFns) (txs : List Transaction) : String :=
  if txs.isEmpty then F.sha "" else rootFrom F (paddedLeaves F txs)

/-- src/merkle.py `MerkleTree.get_proof`: out-of-range indices yield the
empty proof. -/
def MerkleTree.get_proof (F : HashFns) (txs : List Transaction) (i : ℕ) : List (String × String) :=
  if i < txs.length then proofFrom F (paddedLeaves F txs) i else []

/-- src/merkle.py `MerkleTree.verify_proof`. -/
def MerkleTree.verify_proof (F : HashFns) (txh : String) (proof : List (String × String))
    (root : String) : Bool :=
  foldProof F txh proof == root

/-- src/merkle.py `compute_merkle_root`. -/
def compute_merkle_root (F : HashFns) (txs : List Transaction) : String :=
  MerkleTree.root F txs

/-- src/block.py `Block.__init__`: `block_hash` is the cached `_hash` slot
and `merkle_root_cache` the cached `_merkle_root` slot. -/
structure Block where
  index : ℕ
  transactions : List Transaction
  previous_hash : String
  timestamp : ℚ
  nonce : ℕ
  difficulty : ℕ
  block_hash : Option String
  merkle_root_cache : Option String
deriving Repr, DecidableEq

/-- src/block.py `Block.merkle_root` property (cached, else recomputed). -/
def Block.merkle_root (F : HashFns) (b : Block) : String :=
  b.merkle_root_cache.getD (compute_merkle_root F b.transactions)

/-- The header dictionary hashed by `Block.compute_hash`. -/
def Block.header (F : HashFns) (b : Block) : BlockHeader :=
  ⟨b.index, Block.merkle_root F b, b.previous_hash, b.timestamp, b.nonce, b.difficulty⟩

/-- src/block.py `Block.compute_hash`. -/
def Block.compute_hash (F : HashFns) (b : Block) : String :=
  F.blockHash (Block.header F b)

/-- src/block.py `Block.hash` property: the cached `_hash` when present,
otherwise the recomputed header hash. -/
def Block.hash (F : HashFns) (b : Block) : String :=
  b.block_hash.getD (Block.compute_hash F b)

/-- src/block.py `Block.is_valid_proof`. -/
def Block.is_valid_proof (F : HashFns) (b : Block) : Bool :=
  hasLeadingZeros (Block.hash F b) b.difficulty

/-- src/block.py `Block.get_total_fees`. -/
def Block.get_total_fees (b : Block) : ℚ :=
  (b.transactions.filter (fun tx => tx.sender != "COINBASE")).foldl (fun s tx => s + tx.fee) 0

/-- The per-transaction loop at the end of `Block.is_valid`: each
transaction is validated with signature verification skipped for coinbase
senders. -/
def Block.txs_valid (F : HashFns) : List Transaction → Bool × String
  | [] => (true, "")
  | tx :: rest =>
    let r := Transaction.is_valid F tx (tx.sender != "COINBASE")
    if r.1 = false then (false, "Invalid transaction: " ++ r.2)
    else Block.txs_valid F rest

/-- src/block.py `Block.is_valid`: proof of work, then (when requested)
non-emptiness, coinbase-first, the Merkle-cache consistency check
`self._merkle_root is not None and self._merkle_root != computed_root`,
and per-transaction validity. -/
def Block.is_valid (F : HashFns) (b : Block) (verify_transactions : Bool) : Bool × String :=
  if Block.is_valid_proof F b = false then (false, "Invalid proof of work")
  else if verify_transactions then
    match b.transactions with
    | [] => (false, "Block must contain at least one transaction")
    | tx0 :: _ =>
      if tx0.sender ≠ "COINBASE" then (false, "First transaction must be coinbase")
      else
        match b.merkle_root_cache with
        | some m =>
          if m ≠ compute_merkle_root F b.transactions then (false, "Merkle root mismatch")
          else Block.txs_valid F b.transactions
        | none => Block.txs_valid F b.transactions
  else (true, "")

/-- The wire dictionary decoded by `Block.from_dict`; `hash` and
`merkle_root` are `data.get(...)` fields. -/
structure BlockDict where
  index : ℕ
  transactions : List TxDict
  previous_hash : String
  timestamp : ℚ
  nonce : ℕ
  difficulty : ℕ
  hash : Option String
  merkle_root : Option String
deriving Repr, DecidableEq

/-- src/block.py `Block.from_dict`: the wire `hash` and `merkle_root`
fields are stored into the cache slots. -/
def Block.from_dict (d : BlockDict) : Block :=
  ⟨d.index, d.transactions.map Transaction.from_dict, d.previous_hash, d.timestamp,
    d.nonce, d.difficulty, d.hash, d.merkle_root⟩

/-- src/block.py `Block.to_dict`. -/
def Block.to_dict (F : HashFns) (b : Block) : BlockDict :=
  ⟨b.index, b.transactions.map (Transaction.to_dict F), b.previous_hash, b.timestamp,
    b.nonce, b.difficulty, some (Block.hash F b), some (Block.merkle_root F b)⟩

/-- Placeholder block used only as the irrelevant default of list indexing
in theorem statements. -/
def dummyBlock : Block := ⟨0, [], "", 0, 0, 0, none, none⟩

/-- An account record of the ledger state dict (src/blockchain.py). -/
structure Account where
  balance : ℚ
  nonce : ℕ
deriving Repr, DecidableEq

/-- The `state` dict `address -> {balance, nonce}` as a total map: absent
addresses read as balance 0, nonce 0, exactly as `get_balance` and
`get_nonce` report them, and the explicit zero-initialisation inside
`_apply_block_to_state` is a no-op under this reading. -/
def StateMap := String → Account

/-- The state of a fresh dict `{}`. -/
def emptyState : StateMap := fun _ => ⟨0, 0⟩

/-- Pointwise update of one account. -/
def updAcc (st : StateMap) (a : String) (f : Account → Account) : StateMap :=
  fun x => if x = a then f (st x) else st x

/-- One transaction application inside `Blockchain._apply_block_to_state`:
coinbase credits the receiver; otherwise the sender is debited by
amount + fee, the receiver credited by amount, and the sender nonce set to
`tx.nonce + 1`, in that order. -/
def applyTx (st : StateMap) (tx : Transaction) : StateMap :=
  if tx.sender = "COINBASE" then
    updAcc st tx.receiver (fun ac => ⟨ac.balance + tx.amount, ac.nonce⟩)
  else
    let st1 := updAcc st tx.sender (fun ac => ⟨ac.balance - (tx.amount + tx.fee), ac.nonce⟩)
    let st2 := updAcc st1 tx.receiver (fun ac => ⟨ac.balance + tx.amount, ac.nonce⟩)
    updAcc st2 tx.sender (fun ac => ⟨ac.balance, tx.nonce + 1⟩)

/-- src/blockchain.py `Blockchain._apply_block_to_state`. -/
def applyBlock (st : StateMap) (b : Block) : StateMap :=
  b.transactions.foldl applyTx st

/-- src/blockchain.py `Blockchain` fields (the mutable object state). -/
structure Blockchain where
  difficulty : ℕ
  chain : List Block
  state : StateMap

/-- src/blockchain.py `Blockchain.__init__`: append the genesis block and
apply it to the empty state. -/
def Blockchain.init (difficulty : ℕ) (genesis : Block) : Blockchain :=
  ⟨difficulty, [genesis], applyBlock emptyState genesis⟩

/-- src/blockchain.py `Blockchain.get_balance`. -/
def Blockchain.get_balance (bc : Blockchain) (address : String) : ℚ :=
  (bc.state address).balance

/-- src/blockchain.py `Blockchain.get_nonce`. -/
def Blockchain.get_nonce (bc : Blockchain) (address : String) : ℕ :=
  (bc.state address).nonce

/-- src/blockchain.py `Blockchain.can_apply_transaction`: structural
validity with signature, then (for non-coinbase) the balance and nonce
checks against the CURRENT state. -/
def Blockchain.can_apply_transaction (F : HashFns) (bc : Blockchain) (tx : Transaction) :
    Bool × String :=
  let v := Transaction.is_valid F tx true
  if v.1 = false then (false, v.2)
  else if tx.sender = "COINBASE" then (true, "")
  else if Blockchain.get_balance bc tx.sender < tx.amount + tx.fee then
    (false, "Insufficient balance")
  else if tx.nonce ≠ Blockchain.get_nonce bc tx.sender then (false, "Invalid nonce")
  else (true, "")

/-- The `for i, tx in enumerate(block.transactions)` loop of `add_block`:
position 0 is skipped when it is coinbase; every other transaction is
checked with `can_apply_transaction` against the unmodified current state. -/
def Blockchain.check_block_txs (F : HashFns) (bc : Blockchain) :
    ℕ → List Transaction → Bool × String
  | _, [] => (true, "")
  | i, tx :: rest =>
    if i = 0 ∧ tx.sender = "COINBASE" then Blockchain.check_block_txs F bc (i + 1) rest
    else
      let c := Blockchain.can_apply_transaction F bc tx
      if c.1 = false then (false, "Transaction invalid: " ++ c.2)
      else Blockchain.check_block_txs F bc (i + 1) rest

/-- Python `self.chain[-1].hash`. The chain built by the constructor is
never empty; the empty case (which would raise IndexError) is mapped to an
unused default. -/
def lastHash (F : HashFns) (chain : List Block) : String :=
  match chain.getLast? with
  | some b => Block.hash F b
  | none => ""

/-- src/blockchain.py `Blockchain.add_block`: structural block validity,
index and previous-hash linkage, then the per-transaction loop, and on
success the block is appended and applied to the state. -/
def Blockchain.add_block (F : HashFns) (bc : Blockchain) (b : Block) :
    (Bool × String) × Blockchain :=
  let v := Block.is_valid F b true
  if v.1 = false then ((false, v.2), bc)
  else if b.index ≠ bc.chain.length then ((false, "Invalid index"), bc)
  else if b.previous_hash ≠ lastHash F bc.chain then ((false, "Invalid previous_hash"), bc)
  else
    let c := Blockchain.check_block_txs F bc 0 b.transactions
    if c.1 = false then ((false, c.2), bc)
    else ((true, ""), ⟨bc.difficulty, bc.chain ++ [b], applyBlock bc.state b⟩)

/-- The indexed loop of `Blockchain.validate_chain`: each block must be
structurally valid, carry index i, and (for i > 0) link to the previous
block hash. No state is rebuilt and no `can_apply_transaction` is run. -/
def Blockchain.validate_blocks (F : HashFns) :
    ℕ → Option Block → List Block → Bool × String
  | _, _, [] => (true, "")
  | i, prev, b :: rest =>
    let v := Block.is_valid F b true
    if v.1 = false then (false, "Block invalid: " ++ v.2)
    else if b.index ≠ i then (false, "Block has wrong index")
    else
      match prev with
      | some p =>
        if b.previous_hash ≠ Block.hash F p then (false, "Block has invalid previous_hash")
        else Blockchain.validate_blocks F (i + 1) (some b) rest
      | none => Blockchain.validate_blocks F (i + 1) (some b) rest

/-- src/blockchain.py `Blockchain.validate_chain`. -/
def Blockchain.validate_chain (F : HashFns) (chain : List Block) : Bool × String :=
  match chain with
  | [] => (false, "Chain is empty")
  | g :: _ =>
    if g.index ≠ 0 then (false, "Invalid genesis block index")
    else if g.previous_hash ≠ zeros 64 then (false, "Invalid genesis block previous_hash")
    else Blockchain.validate_blocks F 0 none chain

/-- src/blockchain.py `Blockchain.replace_chain`: strictly longer
candidates only; on success the chain is replaced and the state rebuilt
from scratch by replaying every block. -/
def Blockchain.replace_chain (F : HashFns) (bc : Blockchain) (new_chain : List Block) :
    (Bool × String) × Blockchain :=
  if new_chain.length ≤ bc.chain.length then ((false, "New chain is not longer"), bc)
  else
    let v := Blockchain.validate_chain F new_chain
    if v.1 = false then ((false, "Invalid chain: " ++ v.2), bc)
    else ((true, ""), ⟨bc.difficulty, new_chain, new_chain.foldl applyBlock emptyState⟩)

/-- One mempool entry: `key` is the dict key the transaction is stored
under (its hash at admission time) and `added_at` its timestamp; the
`transactions` and `timestamps` dicts of src/mempool.py share their keys
and are updated in lockstep, so they are modelled as one association
list in insertion order. -/
structure MpEntry where
  key : String
  tx : Transaction
  added_at : ℚ
deriving Repr, DecidableEq

/-- src/mempool.py `Mempool` fields. -/
structure Mempool where
  entries : List MpEntry
  max_size : ℕ
  expiry_seconds : ℚ
deriving Repr, DecidableEq

/-- src/mempool.py `Mempool.has_transaction`. -/
def Mempool.has_transaction (mp : Mempool) (tx_hash : String) : Bool :=
  mp.entries.any (fun e => e.key == tx_hash)

/-- src/mempool.py `Mempool.remove_transaction` (dict deletion by key). -/
def Mempool.remove_transaction (mp : Mempool) (tx_hash : String) : Mempool :=
  { mp with entries := mp.entries.filter (fun e => e.key ≠ tx_hash) }

/-- src/mempool.py `Mempool.cleanup_expired`: entries with
`now - timestamp > expiry_seconds` are removed. -/
def Mempool.cleanup_expired (mp : Mempool) (now : ℚ) : Mempool :=
  { mp with entries := mp.entries.filter (fun e => ¬ mp.expiry_seconds < now - e.added_at) }

/-- Python `min(self.transactions.values(), key=lambda t: t.fee)`: the
FIRST entry of minimal fee in iteration (insertion) order, none for an
empty pool (where Python min would raise ValueError). -/
def minFeeEntry : List MpEntry → Option MpEntry
  | [] => none
  | e :: rest =>
    match minFeeEntry rest with
    | none => some e
    | some m => some (if m.tx.fee < e.tx.fee then m else e)

/-- src/mempool.py `Mempool.add_transaction`, with `now` standing for
`time.time()`. The result is none exactly when Python raises (min() over
an empty pool, reachable only with `max_size = 0`). -/
def Mempool.add_transaction (F : HashFns) (mp : Mempool) (tx : Transaction) (now : ℚ) :
    Option (Bool × Mempool) :=
  let txh := Transaction.hash F tx
  if Mempool.has_transaction mp txh then some (false, mp)
  else if mp.max_size ≤ mp.entries.length then
    let cleaned := Mempool.cleanup_expired mp now
    if cleaned.max_size ≤ cleaned.entries.length then
      match minFeeEntry cleaned.entries with
      | none => none
      | some lowest =>
        if tx.fee ≤ lowest.tx.fee then some (false, cleaned)
        else
          let afterEvict := Mempool.remove_transaction cleaned (Transaction.hash F lowest.tx)
          some (true, { afterEvict with entries := afterEvict.entries ++ [⟨txh, tx, now⟩] })
    else some (true, { cleaned with entries := cleaned.entries ++ [⟨txh, tx, now⟩] })
  else some (true, { mp with entries := mp.entries ++ [⟨txh, tx, now⟩] })

/-- The node-local gossip state of src/network.py `P2PNode` that
`_handle_message` reads and writes: the seen-message ids, the connected
peer ids, and the crash flag. -/
structure GossipState where
  seen_messages : List String
  peers : List String
  is_crashed : Bool
deriving Repr, DecidableEq

/-- src/network.py `P2PNode._handle_message`, as a function of the state,
the envelope msg_id, the delivering peer, and `drop_draw`, which stands
for the RNG event `message_drop_prob > 0 and random.random() <
message_drop_prob`. The result carries the new state, whether the
envelope was delivered to the message handler, and the list of peers the
envelope was rebroadcast to (`_gossip_message` excludes the sender). -/
def handle_message (st : GossipState) (msg_id sender_id : String) (drop_draw : Bool) :
    GossipState × Bool × List String :=
  if st.is_crashed then (st, false, [])
  else if st.seen_messages.contains msg_id then (st, false, [])
  else
    let st' := { st with seen_messages := msg_id :: st.seen_messages }
    if drop_draw then (st', false, [])
    else (st', true, st'.peers.filter (fun p => p ≠ sender_id))

/-- The shape `Block.create_genesis_block` produces up to the mined nonce
and timestamp: index 0, previous hash of 64 zeros, difficulty 2, and a
single zero-amount coinbase to GENESIS. -/
def IsGenesisShape (g : Block) : Prop :=
  g.index = 0 ∧ g.previous_hash = zeros 64 ∧ g.difficulty = 2 ∧
    g.transactions = [Transaction.create_coinbase "GENESIS" 0]

/-- Ledger states reachable from a constructor call on a genesis block
followed by successful `add_block` calls; `P` constrains every block the
run starts from or appends. -/
inductive ReachableVia (F : HashFns) (P : Block → Prop) : Blockchain → Prop
  | init (d : ℕ) (g : Block) (hg : IsGenesisShape g) (hP : P g) :
      ReachableVia F P (Blockchain.init d g)
  | step (bc : Blockchain) (b : Block) (hbc : ReachableVia F P bc) (hP : P b)
      (hok : (Blockchain.add_block F bc b).1.1 = true) :
      ReachableVia F P ((Blockchain.add_block F bc b).2)

/-- Ledger states reachable by any sequence of successful appends. -/
def Reachable (F : HashFns) : Blockchain → Prop :=
  ReachableVia F (fun _ => True)

/-- No two non-coinbase transactions of the block share a sender. -/
def DistinctNonCoinbaseSenders (b : Block) : Prop :=
  (b.transactions.filter (fun t => t.sender != "COINBASE")).Pairwise
    (fun t1 t2 => t1.sender ≠ t2.sender)

/-- The chain linkage relation checked by `validate_chain`. -/
def linkedTo (F : HashFns) (p b : Block) : Prop :=
  b.previous_hash = Block.hash F p

/-- A concrete hash-function instance for witnesses: every block header
hashes to 64 zeros (so proof of work holds for difficulty up to 64). -/
def F0 : HashFns where
  txHash := fun c => "tx:" ++ c.receiver ++ ":" ++ toString c.nonce
  blockHash := fun _ => zeros 64
  hmac := fun k m => k ++ "/" ++ m
  sha := fun s => "sha:" ++ s

/-- A concrete hash-function instance that distinguishes block headers by
timestamp, used to exhibit two distinct valid genesis blocks. -/
def F1 : HashFns where
  txHash := fun c => "tx:" ++ c.receiver ++ ":" ++ toString c.nonce
  blockHash := fun h => if h.timestamp = 0 then zeros 64 else if h.timestamp = 1 then "00A" else "00B"
  hmac := fun k m => k ++ "/" ++ m
  sha := fun s => "sha:" ++ s

/-- A concrete genesis block of the shape `create_genesis_block` builds. -/
def gBlock : Block := ⟨0, [Transaction.create_coinbase "GENESIS" 0], zeros 64, 0, 0, 2, none, none⟩

/-- A node constructed on the concrete genesis block. -/
def bc0 : Blockchain := Blockchain.init 2 gBlock

/-- Block 1: a coinbase funding alice with 100. -/
def b1 : Block := ⟨1, [Transaction.create_coinbase "alice" 100], zeros 64, 1, 0, 2, none, none⟩

/-- The ledger after appending `b1`. -/
def bc1 : Blockchain := (Blockchain.add_block F0 bc0 b1).2

/-- alice pays bob 60, nonce 0, properly signed. -/
def txAB : Transaction := Transaction.sign F0 ⟨"alice", "bob", 60, 0, 0, none, none⟩ "alice"

/-- alice pays carol 60, nonce 0 again: together with `txAB` this
overspends the balance of 100 and reuses the nonce. -/
def txAC : Transaction := Transaction.sign F0 ⟨"alice", "carol", 60, 0, 0, none, none⟩ "alice"

/-- Block 2: coinbase plus the two conflicting alice transactions. -/
def b2 : Block :=
  ⟨2, [Transaction.create_coinbase "miner" 1, txAB, txAC], zeros 64, 2, 0, 2, none, none⟩

/-- The ledger after appending the conflicting block. -/
def bc2 : Blockchain := (Blockchain.add_block F0 bc1 b2).2

/-- alice pays bob 50 while alice has balance 0 on every replay of
`candBad`: structurally valid yet not applicable to any rebuilt state. -/
def txBad : Transaction := Transaction.sign F0 ⟨"alice", "bob", 50, 0, 0, none, none⟩ "alice"

/-- A structurally valid block carrying the unapplicable `txBad`. -/
def bBad : Block :=
  ⟨1, [Transaction.create_coinbase "miner" 1, txBad], zeros 64, 3, 0, 2, none, none⟩

/-- A candidate chain that `validate_chain` accepts although its second
block spends money its sender never had. -/
def candBad : List Block := [gBlock, bBad]

/-- A competing genesis block: same shape, different timestamp, hence a
different hash under `F1`. -/
def g1 : Block := ⟨0, [Transaction.create_coinbase "GENESIS" 0], zeros 64, 1, 0, 2, none, none⟩

/-- A block extending the competing genesis `g1` under `F1`. -/
def b1x : Block := ⟨1, [Transaction.create_coinbase "miner" 1], "00A", 2, 0, 2, none, none⟩

/-- A block whose second transaction also claims the COINBASE sender,
minting 1000000 extra coins to mallory. -/
def extraMint : Transaction := ⟨"COINBASE", "mallory", 1000000, 0, 0, some "COINBASE", none⟩

/-- The minting block: coinbase first, a second coinbase after it. -/
def bAtk : Block :=
  ⟨2, [Transaction.create_coinbase "miner" 1, extraMint], zeros 64, 5, 0, 2, none, none⟩

/-- A transaction with fee f to receiver r, used to populate mempools. -/
def feeTx (r : String) (f : ℚ) : Transaction := ⟨"payer", r, 10, f, 0, some "sig", none⟩

/-- A full mempool of three fee-1 entries (max_size 3), all fresh. -/
def mpFull : Mempool :=
  { entries := [⟨Transaction.hash F0 (feeTx "r1" 1), feeTx "r1" 1, 0⟩,
                ⟨Transaction.hash F0 (feeTx "r2" 1), feeTx "r2" 1, 0⟩,
                ⟨Transaction.hash F0 (feeTx "r3" 1), feeTx "r3" 1, 0⟩],
    max_size := 3, expiry_seconds := 3600 }

/-- A concrete gossip state: two peers, nothing seen, not crashed. -/
def gs0 : GossipState := ⟨[], ["p1", "p2"], false⟩

/-- A transaction wire dict carrying an advisory hash field that does not
match its canonical fields. -/
def tdFake : TxDict := ⟨"alice", "bob", 5, 1, 0, some "s", some "ff"⟩

/-- A coinbase transaction wire dict. -/
def tdCb : TxDict := ⟨"COINBASE", "miner", 5, 0, 0, some "COINBASE", none⟩

/-- A block wire dict whose hash field is 64 zeros although its header
hashes to a different value under `F1`. -/
def bdFake : BlockDict := ⟨3, [tdCb], "whatever", 9, 0, 2, some (zeros 64), none⟩

end Sim

set_option allowUnsafeReducibility true
attribute [semireducible] Rat.add Rat.sub Rat.mul

namespace Sim

/-- A Bool that is not false is true. -/
theorem bool_ne_false {b : Bool} (h : ¬ b = false) : b = true := by
  cases b <;> simp_all

/-- A passing `Transaction.is_valid` guarantees the numeric bounds and the
distinct-parties check, for either signature mode. -/
theorem is_valid_bounds {F : HashFns} {tx : Transaction} {vs : Bool}
    (h : (Transaction.is_valid F tx vs).1 = true) :
    0 ≤ tx.amount ∧ 0 ≤ tx.fee ∧ tx.sender ≠ tx.receiver := by
  unfold Transaction.is_valid at h
  split_ifs at h <;> simp_all

/-- A passing block-level transaction loop validates every member. -/
theorem txs_valid_all {F : HashFns} :
    ∀ {l : List Transaction}, (Block.txs_valid F l).1 = true →
      ∀ tx ∈ l, (Transaction.is_valid F tx (tx.sender != "COINBASE")).1 = true := by
  intro l
  induction l with
  | nil => intro _ tx htx; cases htx
  | cons hd tl ih =>
    intro h tx htx
    simp only [Block.txs_valid] at h
    rcases hr : (Transaction.is_valid F hd (hd.sender != "COINBASE")).1 with _ | _
    · rw [hr] at h; simp at h
    · rw [hr] at h; simp at h
      rcases List.mem_cons.mp htx with rfl | htx
      · exact hr
      · exact ih h tx htx

/-- Components implied by a passing `Block.is_valid` with transaction
verification. -/
theorem block_is_valid_parts {F : HashFns} {b : Block}
    (h : (Block.is_valid F b true).1 = true) :
    Block.is_valid_proof F b = true ∧
      (∃ tx0 rest, b.transactions = tx0 :: rest ∧ tx0.sender = "COINBASE") ∧
      (Block.txs_valid F b.transactions).1 = true := by
  rw [Block.is_valid] at h
  rcases hpow : Block.is_valid_proof F b with _ | _
  · rw [hpow] at h; simp at h
  · rw [hpow] at h; simp only [Bool.true_eq_false, if_false, if_true] at h
    refine ⟨rfl, ?_⟩
    rcases htxs : b.transactions with _ | ⟨tx0, rest⟩ <;> rw [htxs] at h
    · simp at h
    · by_cases hcb : tx0.sender = "COINBASE"
      · refine ⟨⟨tx0, rest, rfl, hcb⟩, ?_⟩
        rcases hmr : b.merkle_root_cache with _ | m <;> rw [hmr] at h
        · simpa [hcb] using h
        · by_cases hmm : m = compute_merkle_root F (tx0 :: rest)
          · simpa [hcb, hmm] using h
          · simp [hcb, hmm] at h
      · simp [hcb] at h

/-- Components implied by a passing `can_apply_transaction` on a
non-coinbase transaction: the balance and nonce checks ran against the
CURRENT state of `bc`. -/
theorem can_apply_parts {F : HashFns} {bc : Blockchain} {tx : Transaction}
    (h : (Blockchain.can_apply_transaction F bc tx).1 = true)
    (hnc : tx.sender ≠ "COINBASE") :
    (Transaction.is_valid F tx true).1 = true ∧
      tx.amount + tx.fee ≤ Blockchain.get_balance bc tx.sender ∧
      tx.nonce = Blockchain.get_nonce bc tx.sender := by
  simp only [Blockchain.can_apply_transaction] at h
  rcases hv : (Transaction.is_valid F tx true).1 with _ | _
  · rw [hv] at h; simp at h
  · rw [hv] at h; simp only [Bool.true_eq_false, if_false] at h
    by_cases hb : Blockchain.get_balance bc tx.sender < tx.amount + tx.fee
    · simp [hnc, hb] at h
    · by_cases hn : tx.nonce = Blockchain.get_nonce bc tx.sender
      · exact ⟨rfl, le_of_not_lt hb, hn⟩
      · simp [hnc, hb, hn] at h

/-- The `add_block` transaction loop checks every non-coinbase transaction
against the unmodified pre-block state. -/
theorem check_txs_sound {F : HashFns} {bc : Blockchain} :
    ∀ {l : List Transaction} {i : ℕ}, (Blockchain.check_block_txs F bc i l).1 = true →
      ∀ tx ∈ l, tx.sender ≠ "COINBASE" → (Blockchain.can_apply_transaction F bc tx).1 = true := by
  intro l
  induction l with
  | nil => intro _ _ tx htx; cases htx
  | cons hd tl ih =>
    intro i h tx htx hnc
    simp only [Blockchain.check_block_txs] at h
    by_cases hskip : i = 0 ∧ hd.sender = "COINBASE"
    · rw [if_pos hskip] at h
      rcases List.mem_cons.mp htx with rfl | htx
      · exact absurd hskip.2 hnc
      · exact ih h tx htx hnc
    · rw [if_neg hskip] at h
      rcases hc : (Blockchain.can_apply_transaction F bc hd).1 with _ | _
      · rw [hc] at h; simp at h
      · rw [hc] at h; simp at h
        rcases List.mem_cons.mp htx with rfl | htx
        · exact hc
        · exact ih h tx htx hnc

/-- Components implied by a successful `add_block`: the structural checks
passed against the pre-block state, and the result appends the block and
applies it to the state. -/
theorem add_block_parts {F : HashFns} {bc : Blockchain} {b : Block}
    (h : (Blockchain.add_block F bc b).1.1 = true) :
    (Block.is_valid F b true).1 = true ∧
      b.index = bc.chain.length ∧
      b.previous_hash = lastHash F bc.chain ∧
      (Blockchain.check_block_txs F bc 0 b.transactions).1 = true ∧
      (Blockchain.add_block F bc b).2 =
        ⟨bc.difficulty, bc.chain ++ [b], applyBlock bc.state b⟩ := by
  rcases hv : (Block.is_valid F b true).1 with _ | _
  · simp [Blockchain.add_block, hv] at h
  · by_cases hi : b.index = bc.chain.length
    · by_cases hp : b.previous_hash = lastHash F bc.chain
      · rcases hc : (Blockchain.check_block_txs F bc 0 b.transactions).1 with _ | _
        · simp [Blockchain.add_block, hv, hi, hp, hc] at h
        · exact ⟨rfl, hi, hp, rfl, by simp [Blockchain.add_block, hv, hi, hp, hc]⟩
      · simp [Blockchain.add_block, hv, hi, hp] at h
    · simp [Blockchain.add_block, hv, hi] at h

/-- C6: `replace_chain` rejects every candidate whose length is at most
the current chain length (equal-length competitors included), leaves the
chain and state unchanged on any rejection, and never decreases the chain
length. -/
theorem C6_replace_chain_policy (F : HashFns) (bc : Blockchain) (cand : List Block) :
    (cand.length ≤ bc.chain.length → (Blockchain.replace_chain F bc cand).1.1 = false) ∧
    ((Blockchain.replace_chain F bc cand).1.1 = false →
      (Blockchain.replace_chain F bc cand).2 = bc) ∧
    bc.chain.length ≤ ((Blockchain.replace_chain F bc cand).2).chain.length := by
  by_cases hlen : cand.length ≤ bc.chain.length
  · simp [Blockchain.replace_chain, hlen]
  · rcases hv : (Blockchain.validate_chain F cand).1 with _ | _
    · simp [Blockchain.replace_chain, hlen, hv]
    · simp [Blockchain.replace_chain, hlen, hv]
      omega

/-- C6 witness: a concrete rejected candidate (the empty chain against the
genesis-only node) leaves the node unchanged. -/
theorem C6_witness :
    (Blockchain.replace_chain F0 bc0 []).1.1 = false ∧
    (Blockchain.replace_chain F0 bc0 []).2 = bc0 :=
  ⟨(C6_replace_chain_policy F0 bc0 []).1 (by decide),
   (C6_replace_chain_policy F0 bc0 []).2.1 ((C6_replace_chain_policy F0 bc0 []).1 (by decide))⟩

/-- C9 (amended): on a live node receiving a fresh msg_id, recording,
delivery and rebroadcast-to-all-but-sender happen together only when the
drop fault does not fire; when it fires, the msg_id is still recorded
while delivery and rebroadcast are skipped. -/
theorem C9_gossip_behavior (st : GossipState) (msg_id sender_id : String) (drop_draw : Bool)
    (hc : st.is_crashed = false) (hn : st.seen_messages.contains msg_id = false) :
    (handle_message st msg_id sender_id drop_draw).1.seen_messages =
      msg_id :: st.seen_messages ∧
    (drop_draw = false →
      (handle_message st msg_id sender_id drop_draw).2.1 = true ∧
      (handle_message st msg_id sender_id drop_draw).2.2 =
        st.peers.filter (fun p => p ≠ sender_id)) ∧
    (drop_draw = true →
      (handle_message st msg_id sender_id drop_draw).2.1 = false ∧
      (handle_message st msg_id sender_id drop_draw).2.2 = []) := by
  have hn' : ¬ msg_id ∈ st.seen_messages := by simpa using hn
  cases drop_draw <;> simp [handle_message, hc, hn']

/-- C9 witness: on the concrete two-peer state with no fault, the fresh
envelope is recorded and delivered. -/
theorem C9_witness :
    (handle_message gs0 "m1" "p1" false).1.seen_messages = "m1" :: gs0.seen_messages ∧
    (handle_message gs0 "m1" "p1" false).2.1 = true :=
  ⟨(C9_gossip_behavior gs0 "m1" "p1" false rfl rfl).1,
   ((C9_gossip_behavior gs0 "m1" "p1" false rfl rfl).2.1 rfl).1⟩

/-- C9 counterexample: when the drop fault fires on a live node, a fresh
msg_id is recorded as seen, yet the envelope is neither delivered to the
handler nor rebroadcast, so a recorded-but-never-delivered message exists
and a redelivery of the same msg_id would be dropped as a duplicate. -/
theorem C9_cex :
    gs0.is_crashed = false ∧ gs0.seen_messages.contains "m1" = false ∧
    (handle_message gs0 "m1" "p1" true).1.seen_messages.contains "m1" = true ∧
    (handle_message gs0 "m1" "p1" true).2.1 = false ∧
    (handle_message gs0 "m1" "p1" true).2.2 = [] := by decide

/-- C4 (amended): the wire hash field, when present, is stored verbatim
and returned by the hash property of the decoded transaction or block, and
proof-of-work checking uses exactly that supplied value. -/
theorem C4_hash_trusted (F : HashFns) :
    (∀ d : TxDict, ∀ s, d.hash = some s → Transaction.hash F (Transaction.from_dict d) = s) ∧
    (∀ d : BlockDict, ∀ s, d.hash = some s → Block.hash F (Block.from_dict d) = s) ∧
    (∀ d : BlockDict,
      Block.is_valid_proof F (Block.from_dict d) =
        hasLeadingZeros (d.hash.getD (Block.compute_hash F (Block.from_dict d)))
          d.difficulty) := by
  refine ⟨?_, ?_, ?_⟩
  · intro d s hs; simp [Transaction.hash, Transaction.from_dict, hs]
  · intro d s hs; simp [Block.hash, Block.from_dict, hs]
  · intro d; simp [Block.is_valid_proof, Block.hash, Block.from_dict]

/-- C4 witness: the concrete decoded transaction reports the supplied
advisory hash. -/
theorem C4_witness : Transaction.hash F0 (Transaction.from_dict tdFake) = "ff" :=
  (C4_hash_trusted F0).1 tdFake "ff" rfl

/-- C4 counterexample: decoded dicts whose hash fields disagree with their
canonical fields keep the supplied hash, and the block even passes full
validation (proof of work included) under the supplied hash, contradicting
the claim that such a dict cannot pass validation. -/
theorem C4_cex :
    Transaction.hash F1 (Transaction.from_dict tdFake) ≠
      Transaction.compute_hash F1 (Transaction.from_dict tdFake) ∧
    Block.hash F1 (Block.from_dict bdFake) ≠
      Block.compute_hash F1 (Block.from_dict bdFake) ∧
    (Block.is_valid F1 (Block.from_dict bdFake) true).1 = true := by decide

/-- C5 (amended): `replace_chain` fails and leaves the node unchanged for
every candidate whose first block lacks index 0 or the all-zero previous
hash; no comparison against the locally configured genesis hash is made. -/
theorem C5_genesis_checks (F : HashFns) (bc : Blockchain) (b0 : Block) (rest : List Block)
    (h : b0.index ≠ 0 ∨ b0.previous_hash ≠ zeros 64) :
    (Blockchain.replace_chain F bc (b0 :: rest)).1.1 = false ∧
    (Blockchain.replace_chain F bc (b0 :: rest)).2 = bc := by
  by_cases hlen : rest.length + 1 ≤ bc.chain.length
  · simp [Blockchain.replace_chain, hlen]
  · have hv : (Blockchain.validate_chain F (b0 :: rest)).1 = false := by
      rcases h with h | h
      · simp [Blockchain.validate_chain, h]
      · by_cases hidx : b0.index ≠ 0
        · simp [Blockchain.validate_chain, hidx]
        · simp [Blockchain.validate_chain, hidx, h]
    simp [Blockchain.replace_chain, hlen, hv]

/-- C5 witness: a concrete candidate starting at index 1 is refused and
the node is unchanged. -/
theorem C5_witness :
    (Blockchain.replace_chain F0 bc0 [bBad]).1.1 = false ∧
    (Blockchain.replace_chain F0 bc0 [bBad]).2 = bc0 :=
  C5_genesis_checks F0 bc0 bBad [] (Or.inl (by decide))

/-- C5 counterexample: a longer candidate whose genesis has index 0 and
the all-zero previous hash but a hash DIFFERENT from the locally
configured genesis is adopted by `replace_chain`, contradicting the
claimed genesis-hash comparison. -/
theorem C5_cex :
    g1.index = 0 ∧ g1.previous_hash = zeros 64 ∧
    Block.hash F1 g1 ≠ Block.hash F1 (bc0.chain.headD dummyBlock) ∧
    (Blockchain.replace_chain F1 bc0 [g1, b1x]).1.1 = true := by decide

/-- C1 (amended): every non-coinbase transaction of a block accepted by
`add_block` passes `can_apply_transaction` against the state snapshot as
it stood BEFORE the block; the snapshot is not advanced by earlier
transactions of the same block. -/
theorem C1_pre_block_snapshot (F : HashFns) (bc : Blockchain) (b : Block)
    (h : (Blockchain.add_block F bc b).1.1 = true) :
    ∀ tx ∈ b.transactions, tx.sender ≠ "COINBASE" →
      (Blockchain.can_apply_transaction F bc tx).1 = true := by
  intro tx htx hnc
  exact check_txs_sound (add_block_parts h).2.2.2.1 tx htx hnc

/-- C1 witness: the first alice transaction of the accepted block `b2`
passes `can_apply_transaction` against the pre-block ledger `bc1`. -/
theorem C1_witness : (Blockchain.can_apply_transaction F0 bc1 txAB).1 = true :=
  C1_pre_block_snapshot F0 bc1 b2 (by decide) txAB (by decide) (by decide)

/-- C1 counterexample: the reachable ledger `bc1` accepts a block holding
two transactions from the same sender with the same nonce whose combined
cost exceeds the sender balance, contradicting the claim that such a pair
cannot both be accepted within one block. -/
theorem C1_cex :
    Reachable F0 bc1 ∧
    ((Blockchain.add_block F0 bc1 b2).1.1 = true ∧
      txAB ∈ b2.transactions ∧ txAC ∈ b2.transactions ∧ txAB ≠ txAC ∧
      txAB.sender = txAC.sender ∧ txAB.nonce = txAC.nonce ∧ txAB.sender ≠ "COINBASE" ∧
      Blockchain.get_balance bc1 txAB.sender <
        txAB.amount + txAB.fee + (txAC.amount + txAC.fee)) := by
  constructor
  · exact ReachableVia.step bc0 b1
      (ReachableVia.init 2 gBlock ⟨rfl, rfl, rfl, rfl⟩ trivial) trivial (by decide)
  · decide

/-- Soundness of the indexed loop of `validate_chain`: a passing run
means every block is structurally valid, indices count up from i, and the
blocks are hash-linked (to `prev` as well when present). No state is
consulted. -/
theorem validate_blocks_sound {F : HashFns} :
    ∀ (l : List Block) (i : ℕ) (prev : Option Block),
      (Blockchain.validate_blocks F i prev l).1 = true →
      (∀ b ∈ l, (Block.is_valid F b true).1 = true) ∧
      l.map Block.index = List.range' i l.length ∧
      List.Chain' (linkedTo F) l ∧
      (∀ p hd, prev = some p → l.head? = some hd → linkedTo F p hd) := by
  intro l
  induction l with
  | nil =>
    intro i prev _
    refine ⟨by simp, by simp [List.range'], by simp, by simp⟩
  | cons b rest ih =>
    intro i prev h
    simp only [Blockchain.validate_blocks] at h
    rcases hv : (Block.is_valid F b true).1 with _ | _
    · rw [hv] at h; simp at h
    · rw [hv] at h; simp only [Bool.true_eq_false, if_false] at h
      by_cases hidx : b.index = i
      · rw [if_neg (by simp [hidx])] at h
        have step : (Blockchain.validate_blocks F (i + 1) (some b) rest).1 = true ∧
            (∀ p, prev = some p → linkedTo F p b) := by
          cases prev with
          | none => exact ⟨h, by intro p hp; cases hp⟩
          | some p =>
            dsimp only at h
            by_cases hl : b.previous_hash = Block.hash F p
            · rw [if_neg (by simp [hl])] at h
              exact ⟨h, by intro q hq; cases hq; exact hl⟩
            · rw [if_pos hl] at h; simp at h
        obtain ⟨hblocks, hmap, hchain, hhead⟩ := ih (i + 1) (some b) step.1
        refine ⟨?_, ?_, ?_, ?_⟩
        · intro x hx
          rcases List.mem_cons.mp hx with rfl | hx
          · exact hv
          · exact hblocks x hx
        · simp [List.range', hidx, hmap]
        · exact List.chain'_cons'.mpr ⟨fun y hy => hhead b y rfl hy, hchain⟩
        · intro p hd hp hhd
          cases hhd
          exact step.2 p hp
      · rw [if_pos (by simpa using hidx)] at h; simp at h

/-- C2 (amended): a successful `replace_chain` guarantees a strictly
longer candidate that was validated structurally start-to-finish (every
block valid, indices 0..n-1, hash links, all-zero genesis previous hash),
and the state is rebuilt from scratch by replaying the candidate; but NO
per-transaction applicability (balance, nonce) against any rebuilt state
was checked during validation. -/
theorem C2_structural_validation (F : HashFns) (bc : Blockchain) (cand : List Block)
    (h : (Blockchain.replace_chain F bc cand).1.1 = true) :
    bc.chain.length < cand.length ∧
    (∀ b ∈ cand, (Block.is_valid F b true).1 = true) ∧
    cand.map Block.index = List.range cand.length ∧
    List.Chain' (linkedTo F) cand ∧
    (∀ g rest, cand = g :: rest → g.index = 0 ∧ g.previous_hash = zeros 64) ∧
    (Blockchain.replace_chain F bc cand).2 =
      ⟨bc.difficulty, cand, cand.foldl applyBlock emptyState⟩ := by
  by_cases hlen : cand.length ≤ bc.chain.length
  · simp [Blockchain.replace_chain, hlen] at h
  · rcases hv : (Blockchain.validate_chain F cand).1 with _ | _
    · simp [Blockchain.replace_chain, hlen, hv] at h
    · rcases cand with _ | ⟨g, rest⟩
      · simp [Blockchain.validate_chain] at hv
      · have hgi : g.index = 0 ∧ g.previous_hash = zeros 64 ∧
            (Blockchain.validate_blocks F 0 none (g :: rest)).1 = true := by
          simp only [Blockchain.validate_chain] at hv
          by_cases h0 : g.index ≠ 0
          · rw [if_pos h0] at hv; simp at hv
          · rw [if_neg h0] at hv
            by_cases hz : g.previous_hash ≠ zeros 64
            · rw [if_pos hz] at hv; simp at hv
            · rw [if_neg hz] at hv
              exact ⟨not_not.mp h0, not_not.mp hz, hv⟩
        obtain ⟨hblocks, hmap, hchain, -⟩ := validate_blocks_sound (g :: rest) 0 none hgi.2.2
        refine ⟨by simpa using lt_of_not_le hlen, hblocks, ?_, hchain, ?_, ?_⟩
        · simpa [List.range_eq_range'] using hmap
        · intro g2 rest2 he
          cases he
          exact ⟨hgi.1, hgi.2.1⟩
        · have hlen2 : ¬ rest.length + 1 ≤ bc.chain.length := by simpa using hlen
          simp [Blockchain.replace_chain, hlen2, hv]

/-- C2 witness: the adopted concrete candidate `candBad` is hash-linked. -/
theorem C2_witness : List.Chain' (linkedTo F0) candBad :=
  (C2_structural_validation F0 bc0 candBad (by decide)).2.2.2.1

/-- C2 counterexample: `replace_chain` adopts the candidate `candBad`
although its second block carries `txBad`, which fails
`can_apply_transaction` (balance 0 < 50) against the state obtained by
independently replaying the candidate prefix before that block — so the
claimed per-transaction validation against a rebuilt state did not
happen. -/
theorem C2_cex :
    (Blockchain.replace_chain F0 bc0 candBad).1.1 = true ∧
    bBad ∈ candBad ∧ txBad ∈ bBad.transactions ∧ txBad.sender ≠ "COINBASE" ∧
    (Blockchain.can_apply_transaction F0
      ⟨2, [gBlock], [gBlock].foldl applyBlock emptyState⟩ txBad).1 = false := by decide

/-- A structurally well-formed coinbase-sender transaction passes
`Transaction.is_valid` in every signature mode. -/
theorem coinbase_tx_valid {F : HashFns} (vs : Bool) (t : Transaction)
    (hs : t.sender = "COINBASE") (hr : t.receiver ≠ "COINBASE")
    (ha : 0 ≤ t.amount) (hf : 0 ≤ t.fee) :
    (Transaction.is_valid F t vs).1 = true := by
  simp [Transaction.is_valid, hs, not_lt.mpr ha, not_lt.mpr hf, Ne.symm hr]

/-- C10: a block whose transaction list is a coinbase followed by a second
COINBASE-sender transaction passes `Block.is_valid`; the extra coinbase
passes `can_apply_transaction` with no balance, nonce, or signature check;
`add_block` accepts the block (given correct index, previous hash and
proof of work); and applying it credits the extra receiver with the full
extra amount. -/
theorem C10_extra_coinbase (F : HashFns) (bc : Blockchain) (cb extra : Transaction) (b : Block)
    (hb : b.transactions = [cb, extra])
    (hcb : cb.sender = "COINBASE") (hex : extra.sender = "COINBASE")
    (hcbr : cb.receiver ≠ "COINBASE") (hexr : extra.receiver ≠ "COINBASE")
    (hcba : 0 ≤ cb.amount) (hexa : 0 ≤ extra.amount)
    (hcbf : 0 ≤ cb.fee) (hexf : 0 ≤ extra.fee)
    (hpow : Block.is_valid_proof F b = true)
    (hmr : b.merkle_root_cache = none)
    (hidx : b.index = bc.chain.length)
    (hprev : b.previous_hash = lastHash F bc.chain)
    (hdr : extra.receiver ≠ cb.receiver) :
    (Block.is_valid F b true).1 = true ∧
    (Blockchain.can_apply_transaction F bc extra).1 = true ∧
    (Blockchain.add_block F bc b).1.1 = true ∧
    Blockchain.get_balance ((Blockchain.add_block F bc b).2) extra.receiver =
      Blockchain.get_balance bc extra.receiver + extra.amount := by
  have hvcb := coinbase_tx_valid (F := F) false cb hcb hcbr hcba hcbf
  have hvex := coinbase_tx_valid (F := F) false extra hex hexr hexa hexf
  have hval : (Block.is_valid F b true).1 = true := by
    simp [Block.is_valid, hpow, hb, hmr, Block.txs_valid, hcb, hex, hvcb, hvex]
  have hcan : (Blockchain.can_apply_transaction F bc extra).1 = true := by
    simp [Blockchain.can_apply_transaction, hex,
      coinbase_tx_valid (F := F) true extra hex hexr hexa hexf]
  have hchk : (Blockchain.check_block_txs F bc 0 b.transactions).1 = true := by
    rw [hb]
    simp [Blockchain.check_block_txs, hcb, hcan]
  have hadd : (Blockchain.add_block F bc b).1.1 = true := by
    simp [Blockchain.add_block, hval, hidx, hprev, hchk]
  have hres := (add_block_parts hadd).2.2.2.2
  refine ⟨hval, hcan, hadd, ?_⟩
  rw [hres]
  simp [Blockchain.get_balance, applyBlock, hb, applyTx, hcb, hex, updAcc, hdr]

/-- C10 witness: on the funded ledger `bc1`, the concrete block `bAtk`
with a second COINBASE transaction is accepted and mints 1000000 coins to
mallory. -/
theorem C10_witness :
    (Blockchain.add_block F0 bc1 bAtk).1.1 = true ∧
    Blockchain.get_balance ((Blockchain.add_block F0 bc1 bAtk).2) "mallory" =
      Blockchain.get_balance bc1 "mallory" + 1000000 := by
  have h := C10_extra_coinbase F0 bc1 (Transaction.create_coinbase "miner" 1) extraMint bAtk
    rfl rfl rfl (by decide) (by decide) (by decide) (by decide) (by decide) (by decide)
    (by decide) rfl (by decide) (by decide) (by decide)
  exact ⟨h.2.2.1, h.2.2.2⟩

/-- `minFeeEntry` returns none only on the empty pool (where Python min
raises). -/
theorem minFeeEntry_none : ∀ {l : List MpEntry}, minFeeEntry l = none → l = [] := by
  intro l h
  cases l with
  | nil => rfl
  | cons a rest =>
    simp only [minFeeEntry] at h
    rcases hm : minFeeEntry rest with _ | m <;> rw [hm] at h <;> cases h

/-- The minimum-fee entry is a member of the pool. -/
theorem minFeeEntry_mem : ∀ {l : List MpEntry} {e : MpEntry}, minFeeEntry l = some e → e ∈ l := by
  intro l
  induction l with
  | nil => intro e h; cases h
  | cons a rest ih =>
    intro e h
    simp only [minFeeEntry] at h
    rcases hm : minFeeEntry rest with _ | m <;> rw [hm] at h <;> dsimp only at h
    · cases h; exact List.mem_cons_self a rest
    · by_cases hlt : m.tx.fee < a.tx.fee
      · rw [if_pos hlt] at h; cases h; exact List.mem_cons_of_mem a (ih hm)
      · rw [if_neg hlt] at h; cases h; exact List.mem_cons_self a rest

/-- The minimum-fee entry has a fee at most every pool fee. -/
theorem minFeeEntry_min : ∀ {l : List MpEntry} {e : MpEntry}, minFeeEntry l = some e →
    ∀ x ∈ l, e.tx.fee ≤ x.tx.fee := by
  intro l
  induction l with
  | nil => intro e h; cases h
  | cons a rest ih =>
    intro e h x hx
    simp only [minFeeEntry] at h
    rcases hm : minFeeEntry rest with _ | m <;> rw [hm] at h <;> dsimp only at h
    · cases h
      rcases List.mem_cons.mp hx with rfl | hx
      · exact le_refl _
      · rw [minFeeEntry_none hm] at hx; cases hx
    · by_cases hlt : m.tx.fee < a.tx.fee
      · rw [if_pos hlt] at h; cases h
        rcases List.mem_cons.mp hx with rfl | hx
        · exact le_of_lt hlt
        · exact ih hm x hx
      · rw [if_neg hlt] at h; cases h
        rcases List.mem_cons.mp hx with rfl | hx
        · exact le_refl _
        · exact le_trans (not_lt.mp hlt) (ih hm x hx)

/-- Filtering out a member for which the predicate fails strictly
shortens the list. -/
theorem length_filter_lt {α : Type} (p : α → Bool) :
    ∀ (l : List α) (e : α), e ∈ l → p e = false → (l.filter p).length < l.length := by
  intro l
  induction l with
  | nil => intro e he; intro _; cases he
  | cons a rest ih =>
    intro e he hp
    rcases List.mem_cons.mp he with rfl | he
    · simp only [List.filter, hp]
      exact Nat.lt_succ_of_le (List.length_filter_le _ _)
    · rcases hpa : p a with _ | _ <;> simp only [List.filter, hpa]
      · exact Nat.lt_succ_of_lt (ih e he hp)
      · simpa using Nat.succ_lt_succ (ih e he hp)

/-- C7: admission behaviour of `Mempool.add_transaction` for a transaction
not already pooled, on a well-formed pool (entry keys are the stored
transaction hashes, as insertion guarantees) within its capacity bound:
below max_size it appends; at capacity it first removes expired entries
and inserts if that made room; if still full it locates the minimum-fee
entry and admits the newcomer if and only if its fee strictly exceeds that
minimum (evicting the minimum), rejecting fee ties; and the pool size
never exceeds max_size. -/
theorem C7_mempool_admission (F : HashFns) (mp : Mempool) (tx : Transaction) (now : ℚ)
    (hnew : Mempool.has_transaction mp (Transaction.hash F tx) = false)
    (hwf : ∀ e ∈ mp.entries, e.key = Transaction.hash F e.tx)
    (hmax : 1 ≤ mp.max_size)
    (hsz : mp.entries.length ≤ mp.max_size) :
    ∃ ok mp2, Mempool.add_transaction F mp tx now = some (ok, mp2) ∧
      mp2.entries.length ≤ mp.max_size ∧
      (mp.entries.length < mp.max_size →
        ok = true ∧ mp2.entries = mp.entries ++ [⟨Transaction.hash F tx, tx, now⟩]) ∧
      (mp.max_size ≤ mp.entries.length →
        (Mempool.cleanup_expired mp now).entries.length < mp.max_size →
        ok = true ∧ mp2.entries =
          (Mempool.cleanup_expired mp now).entries ++ [⟨Transaction.hash F tx, tx, now⟩]) ∧
      (mp.max_size ≤ (Mempool.cleanup_expired mp now).entries.length →
        ∀ lowest, minFeeEntry (Mempool.cleanup_expired mp now).entries = some lowest →
          (∀ x ∈ (Mempool.cleanup_expired mp now).entries, lowest.tx.fee ≤ x.tx.fee) ∧
          (tx.fee ≤ lowest.tx.fee → ok = false ∧ mp2 = Mempool.cleanup_expired mp now) ∧
          (lowest.tx.fee < tx.fee → ok = true ∧ mp2.entries =
            ((Mempool.cleanup_expired mp now).entries.filter
              (fun e => e.key ≠ Transaction.hash F lowest.tx)) ++
              [⟨Transaction.hash F tx, tx, now⟩])) := by
  have hclean_le : (Mempool.cleanup_expired mp now).entries.length ≤ mp.entries.length :=
    List.length_filter_le _ _
  have hnew2 : ¬ Mempool.has_transaction mp (Transaction.hash F tx) = true := by simp [hnew]
  by_cases hfull : mp.max_size ≤ mp.entries.length
  · by_cases hstill : mp.max_size ≤ (Mempool.cleanup_expired mp now).entries.length
    · have hstill2 : (Mempool.cleanup_expired mp now).max_size ≤
          (Mempool.cleanup_expired mp now).entries.length := hstill
      have hne : (Mempool.cleanup_expired mp now).entries ≠ [] := by
        intro h0
        rw [h0] at hstill
        simp at hstill
        omega
      obtain ⟨lowest, hlow⟩ :
          ∃ e, minFeeEntry (Mempool.cleanup_expired mp now).entries = some e := by
        rcases hm : minFeeEntry (Mempool.cleanup_expired mp now).entries with _ | e
        · exact absurd (minFeeEntry_none hm) hne
        · exact ⟨e, rfl⟩
      have hmem := minFeeEntry_mem hlow
      have hmin := minFeeEntry_min hlow
      by_cases hfee : tx.fee ≤ lowest.tx.fee
      · refine ⟨false, Mempool.cleanup_expired mp now, ?_, by omega,
          fun h2 => absurd h2 (not_lt.mpr hfull),
          fun _ h2 => absurd h2 (not_lt.mpr hstill), ?_⟩
        · simp only [Mempool.add_transaction]
          rw [if_neg hnew2, if_pos hfull, if_pos hstill2, hlow]
          dsimp only
          rw [if_pos hfee]
        · intro _ lowest2 hlow2
          rw [hlow] at hlow2
          cases hlow2
          exact ⟨hmin, fun _ => ⟨rfl, rfl⟩, fun hlt => absurd hlt (not_lt.mpr hfee)⟩
      · have hkey : lowest.key = Transaction.hash F lowest.tx :=
          hwf lowest (List.mem_of_mem_filter hmem)
        have hflt :
            ((Mempool.cleanup_expired mp now).entries.filter
              (fun e => e.key ≠ Transaction.hash F lowest.tx)).length <
              (Mempool.cleanup_expired mp now).entries.length :=
          length_filter_lt _ _ lowest hmem (by simp [hkey])
        refine ⟨true,
          ⟨((Mempool.cleanup_expired mp now).entries.filter
              (fun e => e.key ≠ Transaction.hash F lowest.tx)) ++
            [⟨Transaction.hash F tx, tx, now⟩], mp.max_size, mp.expiry_seconds⟩, ?_, ?_,
          fun h2 => absurd h2 (not_lt.mpr hfull),
          fun _ h2 => absurd h2 (not_lt.mpr hstill), ?_⟩
        · simp only [Mempool.add_transaction]
          rw [if_neg hnew2, if_pos hfull, if_pos hstill2, hlow]
          dsimp only
          rw [if_neg hfee]
          rfl
        · simp only [List.length_append, List.length_cons, List.length_nil]
          omega
        · intro _ lowest2 hlow2
          rw [hlow] at hlow2
          cases hlow2
          exact ⟨hmin, fun hle => absurd hle hfee, fun _ => ⟨rfl, rfl⟩⟩
    · have hstill2 : ¬ (Mempool.cleanup_expired mp now).max_size ≤
          (Mempool.cleanup_expired mp now).entries.length := hstill
      refine ⟨true,
        ⟨(Mempool.cleanup_expired mp now).entries ++ [⟨Transaction.hash F tx, tx, now⟩],
          mp.max_size, mp.expiry_seconds⟩, ?_, ?_,
        fun h2 => absurd h2 (not_lt.mpr hfull),
        fun _ _ => ⟨rfl, rfl⟩,
        fun hstill3 => absurd hstill3 hstill⟩
      · simp only [Mempool.add_transaction]
        rw [if_neg hnew2, if_pos hfull, if_neg hstill2]
        rfl
      · simp only [List.length_append, List.length_cons, List.length_nil]
        omega
  · refine ⟨true, ⟨mp.entries ++ [⟨Transaction.hash F tx, tx, now⟩],
      mp.max_size, mp.expiry_seconds⟩, ?_, ?_,
      fun _ => ⟨rfl, rfl⟩,
      fun h2 => absurd h2 hfull,
      fun hstill2 => absurd hstill2 (by omega)⟩
    · simp only [Mempool.add_transaction]
      rw [if_neg hnew2, if_neg hfull]
    · simp only [List.length_append, List.length_cons, List.length_nil]
      omega

/-- C7 witness: on the concrete full pool of three fee-1 entries, the
fee-2 newcomer is admitted with the size staying at max_size, and the
pool minimum was indeed located among the entries. -/
theorem C7_witness :
    ∃ ok mp2, Mempool.add_transaction F0 mpFull (feeTx "new" 2) 10 = some (ok, mp2) ∧
      mp2.entries.length ≤ mpFull.max_size ∧ ok = true := by
  obtain ⟨ok, mp2, heq, hle, -, -, hfullcase⟩ :=
    C7_mempool_admission F0 mpFull (feeTx "new" 2) 10 (by decide) (by decide) (by decide)
      (by decide)
  have h := hfullcase (by decide) ⟨Transaction.hash F0 (feeTx "r1" 1), feeTx "r1" 1, 0⟩
    (by decide)
  exact ⟨ok, mp2, heq, hle, (h.2.2 (by decide)).1⟩

/-- Balance change of one coinbase application: only the receiver moves,
gaining the amount. -/
theorem applyTx_balance_coinbase {st : StateMap} {tx : Transaction} (h : tx.sender = "COINBASE")
    (a : String) :
    ((applyTx st tx) a).balance =
      if a = tx.receiver then (st a).balance + tx.amount else (st a).balance := by
  simp only [applyTx, if_pos h, updAcc]
  split_ifs <;> rfl

/-- Balance change of one regular application with distinct parties: the
sender loses amount + fee, the receiver gains amount, everyone else is
untouched. -/
theorem applyTx_balance_reg {st : StateMap} {tx : Transaction} (h : tx.sender ≠ "COINBASE")
    (hsr : tx.sender ≠ tx.receiver) (a : String) :
    ((applyTx st tx) a).balance =
      if a = tx.sender then (st a).balance - (tx.amount + tx.fee)
      else if a = tx.receiver then (st a).balance + tx.amount
      else (st a).balance := by
  by_cases h1 : a = tx.sender
  · have h2 : ¬ a = tx.receiver := fun hr => hsr (h1.symm.trans hr)
    simp [applyTx, h, updAcc, h1, h2, hsr, Ne.symm hsr]
  · by_cases h2 : a = tx.receiver
    · simp [applyTx, h, updAcc, h1, h2, Ne.symm hsr]
    · simp [applyTx, h, updAcc, h1, h2]

/-- Core preservation argument: folding a transaction list over a state
keeps every balance non-negative, provided the non-coinbase senders are
pairwise distinct, every transaction satisfies the structural bounds, and
every non-coinbase transaction is affordable against the INITIAL state —
exactly the facts `add_block` establishes before applying a block. -/
theorem foldl_applyTx_nonneg :
    ∀ (l : List Transaction) (st : StateMap),
      (l.filter (fun t => t.sender != "COINBASE")).Pairwise
        (fun t1 t2 => t1.sender ≠ t2.sender) →
      (∀ tx ∈ l, 0 ≤ tx.amount ∧ 0 ≤ tx.fee ∧ tx.sender ≠ tx.receiver) →
      (∀ tx ∈ l, tx.sender ≠ "COINBASE" → tx.amount + tx.fee ≤ (st tx.sender).balance) →
      (∀ a, 0 ≤ (st a).balance) →
      ∀ a, 0 ≤ ((l.foldl applyTx st) a).balance := by
  intro l
  induction l with
  | nil => intro st _ _ _ hnn a; simpa using hnn a
  | cons tx rest ih =>
    intro st hpair hval hafford hnn a
    simp only [List.foldl_cons]
    have hamt := (hval tx (List.mem_cons_self _ _)).1
    by_cases hcb : tx.sender = "COINBASE"
    · have hfil : (tx :: rest).filter (fun t => t.sender != "COINBASE") =
          rest.filter (fun t => t.sender != "COINBASE") := by
        simp [List.filter_cons, hcb]
      rw [hfil] at hpair
      apply ih (applyTx st tx) hpair
      · intro t ht; exact hval t (List.mem_cons_of_mem _ ht)
      · intro t ht hnc
        refine le_trans (hafford t (List.mem_cons_of_mem _ ht) hnc) ?_
        rw [applyTx_balance_coinbase hcb]
        split_ifs
        · linarith
        · exact le_refl _
      · intro x
        rw [applyTx_balance_coinbase hcb]
        split_ifs
        · have := hnn x; linarith
        · exact hnn x
    · have hsr := (hval tx (List.mem_cons_self _ _)).2.2
      have haff := hafford tx (List.mem_cons_self _ _) hcb
      have hfil : (tx :: rest).filter (fun t => t.sender != "COINBASE") =
          tx :: rest.filter (fun t => t.sender != "COINBASE") := by
        simp [List.filter_cons, hcb]
      rw [hfil] at hpair
      obtain ⟨hhead, hpair2⟩ := List.pairwise_cons.mp hpair
      apply ih (applyTx st tx) hpair2
      · intro t ht; exact hval t (List.mem_cons_of_mem _ ht)
      · intro t ht hnc
        have hne : tx.sender ≠ t.sender :=
          hhead t (List.mem_filter.mpr ⟨ht, by simp [hnc]⟩)
        refine le_trans (hafford t (List.mem_cons_of_mem _ ht) hnc) ?_
        rw [applyTx_balance_reg hcb hsr]
        split_ifs with h1 h2
        · exact absurd h1.symm hne
        · linarith
        · exact le_refl _
      · intro x
        rw [applyTx_balance_reg hcb hsr]
        split_ifs with h1 h2
        · subst h1; linarith
        · have := hnn x; linarith
        · exact hnn x

/-- Every ledger reachable from genesis through blocks whose non-coinbase
senders are pairwise distinct has only non-negative balances. -/
theorem reachable_nonneg {F : HashFns} {bc : Blockchain}
    (h : ReachableVia F DistinctNonCoinbaseSenders bc) :
    ∀ a, 0 ≤ (bc.state a).balance := by
  induction h with
  | init d g hg hP =>
    intro a
    simp [Blockchain.init, applyBlock, hg.2.2.2, applyTx, Transaction.create_coinbase,
      updAcc, emptyState]
  | step bc b hbc hP hok ih =>
    intro a
    rw [(add_block_parts hok).2.2.2.2]
    obtain ⟨hvalid, -, -, hchk, -⟩ := add_block_parts hok
    obtain ⟨-, -, htxv⟩ := block_is_valid_parts hvalid
    have hvb : ∀ t ∈ b.transactions, 0 ≤ t.amount ∧ 0 ≤ t.fee ∧ t.sender ≠ t.receiver :=
      fun t ht => is_valid_bounds (txs_valid_all htxv t ht)
    have haf : ∀ t ∈ b.transactions, t.sender ≠ "COINBASE" →
        t.amount + t.fee ≤ (bc.state t.sender).balance :=
      fun t ht hnc => (can_apply_parts (check_txs_sound hchk t ht hnc) hnc).2.1
    exact foldl_applyTx_nonneg b.transactions bc.state hP hvb haf ih a

/-- C3 (amended): after any sequence of successful appends starting from
genesis in which no accepted block carries two non-coinbase transactions
from the same sender, every account balance is non-negative. -/
theorem C3_balances_nonneg (F : HashFns) (bc : Blockchain)
    (h : ReachableVia F DistinctNonCoinbaseSenders bc) (a : String) :
    0 ≤ Blockchain.get_balance bc a :=
  reachable_nonneg h a

/-- C3 witness: the concrete two-block ledger `bc1` (each block has at
most one non-coinbase sender) keeps every balance non-negative, shown for
alice. -/
theorem C3_witness : 0 ≤ Blockchain.get_balance bc1 "alice" :=
  C3_balances_nonneg F0 bc1
    (ReachableVia.step bc0 b1
      (ReachableVia.init 2 gBlock ⟨rfl, rfl, rfl, rfl⟩
        (by simp [DistinctNonCoinbaseSenders, gBlock, Transaction.create_coinbase]))
      (by simp [DistinctNonCoinbaseSenders, b1, Transaction.create_coinbase])
      (by decide))
    "alice"

/-- C3 counterexample: the ledger `bc2` is reachable from genesis by
successful appends alone, yet alice ends with balance -20, contradicting
the unconditional claim that balances stay non-negative. -/
theorem C3_cex : Reachable F0 bc2 ∧ Blockchain.get_balance bc2 "alice" < 0 := by
  constructor
  · exact ReachableVia.step bc1 b2
      (ReachableVia.step bc0 b1
        (ReachableVia.init 2 gBlock ⟨rfl, rfl, rfl, rfl⟩ trivial) trivial (by decide))
      trivial (by decide)
  · decide

/-- Characterisation of one tree level: the parent at position k hashes
the children at positions 2k and 2k+1, the last child pairing with itself
when it has no right sibling. -/
theorem pairUp_getElem (F : HashFns) :
    ∀ (n : ℕ) (l : List String), l.length ≤ n → ∀ (k : ℕ),
      (pairUp F l)[k]? =
        match l[2 * k]?, l[2 * k + 1]? with
        | some a, some b => some (hashPair F a b)
        | some a, none => some (hashPair F a a)
        | none, _ => none := by
  intro n
  induction n with
  | zero =>
    intro l hl k
    have : l = [] := List.length_eq_zero.mp (Nat.le_zero.mp hl)
    subst this
    simp [pairUp]
  | succ n ih =>
    intro l hl k
    rcases l with _ | ⟨x, l2⟩
    · simp [pairUp]
    · rcases l2 with _ | ⟨y, rest⟩
      · rcases k with _ | k2
        · simp [pairUp]
        · have h1 : 2 * (k2 + 1) = 2 * k2 + 2 := by omega
          simp [pairUp, h1]
      · rcases k with _ | k2
        · simp [pairUp]
        · have h1 : 2 * (k2 + 1) = 2 * k2 + 1 + 1 := by omega
          rw [h1]
          simp only [pairUp, List.getElem?_cons_succ]
          exact ih rest (by simp at hl; omega) k2

/-- The hash produced by one verification step from position i of a level
equals the parent at position i / 2 of the next level. -/
theorem siblingStep_fold (F : HashFns) (cur : List String) (i : ℕ) (hi : i < cur.length) :
    (if (siblingStep cur i).2 = "left"
      then hashPair F (siblingStep cur i).1 (cur.getD i "")
      else hashPair F (cur.getD i "") (siblingStep cur i).1) =
    (pairUp F cur).getD (i / 2) "" := by
  conv_rhs => rw [List.getD_eq_getElem?_getD, pairUp_getElem F cur.length cur (le_refl _) (i / 2)]
  by_cases hpar : i % 2 = 0
  · have h2i : 2 * (i / 2) = i := by omega
    rw [h2i]
    by_cases hlt : i + 1 < cur.length
    · rw [List.getElem?_eq_getElem hi, List.getElem?_eq_getElem hlt]
      simp [siblingStep, hpar, hlt, List.getD_eq_getElem?_getD,
        List.getElem?_eq_getElem hi, List.getElem?_eq_getElem hlt]
    · rw [List.getElem?_eq_getElem hi, List.getElem?_eq_none (by omega)]
      simp [siblingStep, hpar, hlt, List.getD_eq_getElem?_getD,
        List.getElem?_eq_getElem hi]
  · have hi1 : i - 1 < cur.length := by omega
    have h2i : 2 * (i / 2) = i - 1 := by omega
    have h2i1 : 2 * (i / 2) + 1 = i := by omega
    rw [h2i1, h2i, List.getElem?_eq_getElem hi1, List.getElem?_eq_getElem hi]
    simp [siblingStep, hpar, List.getD_eq_getElem?_getD,
      List.getElem?_eq_getElem hi, List.getElem?_eq_getElem hi1]

/-- Main Merkle invariant: replaying the proof for any in-range position
of a level reproduces the root computed from that level. -/
theorem foldProof_rootFrom (F : HashFns) :
    ∀ (n : ℕ) (cur : List String), cur.length ≤ n → ∀ i, i < cur.length →
      foldProof F (cur.getD i "") (proofFrom F cur i) = rootFrom F cur := by
  intro n
  induction n with
  | zero => intro cur hl i hi; omega
  | succ n ih =>
    intro cur hl i hi
    by_cases h2 : 2 ≤ cur.length
    · rw [proofFrom, dif_pos h2, rootFrom, dif_pos h2]
      have hcons : foldProof F (cur.getD i "")
          (siblingStep cur i :: proofFrom F (pairUp F cur) (i / 2)) =
          foldProof F
            (if (siblingStep cur i).2 = "left"
              then hashPair F (siblingStep cur i).1 (cur.getD i "")
              else hashPair F (cur.getD i "") (siblingStep cur i).1)
            (proofFrom F (pairUp F cur) (i / 2)) := by
        simp [foldProof]
      rw [hcons, siblingStep_fold F cur i hi]
      exact ih (pairUp F cur) (by rw [pairUp_length]; omega) (i / 2)
        (by rw [pairUp_length]; omega)
    · rcases cur with _ | ⟨x, l2⟩
      · simp at hi
      · rcases l2 with _ | ⟨y, rest⟩
        · have hi0 : i = 0 := by simpa using hi
          subst hi0
          rw [proofFrom, dif_neg h2, rootFrom, dif_neg h2]
          simp [foldProof]
        · exact absurd (by simp only [List.length_cons]; omega : 2 ≤ (x :: y :: rest).length) h2

/-- C8: the Merkle root of the empty transaction list is the hash of the
empty string, and for every non-empty list and every in-range index —
including the duplicated last leaf of an odd-count tree — the generated
inclusion proof verifies against the root. -/
theorem C8_merkle (F : HashFns) :
    MerkleTree.root F [] = F.sha "" ∧
    ∀ (txs : List Transaction) (i : ℕ), i < txs.length →
      MerkleTree.verify_proof F (Transaction.hash F (txs.getD i dummyTx))
        (MerkleTree.get_proof F txs i) (MerkleTree.root F txs) = true := by
  constructor
  · simp [MerkleTree.root]
  · intro txs i hi
    have hne : txs.isEmpty = false := by
      rcases txs with _ | _
      · simp at hi
      · rfl
    have hlen : (txLeaves F txs).length = txs.length := by simp [txLeaves]
    have hgetmap : (txLeaves F txs).getD i "" = Transaction.hash F (txs.getD i dummyTx) := by
      rw [List.getD_eq_getElem?_getD, List.getD_eq_getElem?_getD, txLeaves,
        List.getElem?_map, List.getElem?_eq_getElem hi]
      rfl
    have hleaf : (paddedLeaves F txs).getD i "" = Transaction.hash F (txs.getD i dummyTx) := by
      rw [paddedLeaves, padLeaves]
      split_ifs with hodd
      · rw [List.getD_append _ _ _ _ (by omega : i < (txLeaves F txs).length)]
        exact hgetmap
      · exact hgetmap
    have hipad : i < (paddedLeaves F txs).length := by
      rw [paddedLeaves, padLeaves]
      split_ifs with hodd <;> simp [hlen] <;> omega
    have hfold := foldProof_rootFrom F (paddedLeaves F txs).length (paddedLeaves F txs)
      (le_refl _) i hipad
    rw [MerkleTree.verify_proof, MerkleTree.get_proof, if_pos hi, MerkleTree.root, hne]
    rw [← hleaf, hfold]
    simp

/-- C8 witness: the proof for the duplicated last leaf of a concrete
three-transaction tree verifies against the root. -/
theorem C8_witness :
    MerkleTree.verify_proof F0
      (Transaction.hash F0 ([feeTx "a" 1, feeTx "b" 1, feeTx "c" 1].getD 2 dummyTx))
      (MerkleTree.get_proof F0 [feeTx "a" 1, feeTx "b" 1, feeTx "c" 1] 2)
      (MerkleTree.root F0 [feeTx "a" 1, feeTx "b" 1, feeTx "c" 1]) = true :=
  (C8_merkle F0).2 [feeTx "a" 1, feeTx "b" 1, feeTx "c" 1] 2 (by decide)

end Sim
